import Mathlib

/-!
Verification of the iridium register-machine toolchain (two-pass assembler
and bytecode VM) against its natural-language specification.

The definitions below are a shallow embedding of the Rust sources:
  - src/ProgrammingLanuage/iridium/src/instruction.rs
  - src/ProgrammingLanuage/iridium/src/vm.rs
  - src/ProgrammingLanuage/iridium/src/assembler/mod.rs
  - src/ProgrammingLanuage/iridium/src/assembler/instruction_parsers.rs
  - src/ProgrammingLanuage/iridium/src/assembler/program_parsers.rs
  - src/ProgrammingLanuage/iridium/src/assembler/operand_parsers.rs
  - src/ProgrammingLanuage/iridium/src/assembler/integer_parsers.rs
  - src/ProgrammingLanuage/iridium/src/assembler/directive_parsers.rs
  - src/ProgrammingLanuage/iridium/src/assembler/irstring_parsers.rs

Machine integers are modelled as Nat (u8/u16/u32/usize byte values and
offsets) and Int (i32 register values) with explicit modular reduction
where the Rust code converts or can wrap.  A Rust panic (out-of-bounds
index, integer overflow in checked positions, divide by zero,
process exit) is modelled as the value none of an Option result.

The files assembler/label_parsers.rs, assembler/opcode_parsers.rs,
assembler/register_parsers.rs and assembler/assembler_errors.rs are
declared in assembler/mod.rs but are not present under src/; the
definitions that embed them are marked with a comment starting
"Modelled from the spec:" and follow the specification text.
-/

namespace Iridium

/-- Two-complement wrap of an integer into the i32 range, modelling
release-mode wrapping arithmetic on Rust i32 values. -/
def wrap32 (x : Int) : Int := (x + 2 ^ 31) % 2 ^ 32 - 2 ^ 31

/-- Reinterpretation of an i32 value as a u32, modelling the Rust cast
with `as u32` (two-complement bit pattern). -/
def u32of (x : Int) : Nat := (x % (2 ^ 32 : Int)).toNat

/-- Reinterpretation of an i32 value as a 64-bit usize, modelling the
Rust cast with `as usize` (sign extension then reinterpretation). -/
def usizeOf (x : Int) : Nat := (x % (2 ^ 64 : Int)).toNat

/-- Truncation of an i32 value to a u16, modelling the Rust cast with
`as u16`. -/
def u16of (x : Int) : Nat := (x % (2 ^ 16 : Int)).toNat

/-- UTF-8 encoding of a single character, as a list of byte values.
Models the byte view that Rust `str::as_bytes` exposes. -/
def utf8CharBytes (c : Char) : List Nat :=
  let n := c.toNat
  if n < 128 then [n]
  else if n < 2048 then [192 + n / 64, 128 + n % 64]
  else if n < 65536 then [224 + n / 4096, 128 + n / 64 % 64, 128 + n % 64]
  else [240 + n / 262144, 128 + n / 4096 % 64, 128 + n / 64 % 64, 128 + n % 64]

/-- UTF-8 bytes of a string, modelling Rust `String::as_bytes`. -/
def utf8Bytes (s : String) : List Nat :=
  s.data.foldr (fun c acc => utf8CharBytes c ++ acc) []

/-! ## Opcodes (instruction.rs) -/

/-- The opcode enumeration from instruction.rs, in Rust declaration
order.  The declaration order matters: the Rust expression `code as u8`
uses the enum discriminant, and IGL is declared between JEQ and ALOC. -/
inductive Opcode where
  | HLT
  | LOAD
  | ADD
  | SUB
  | MUL
  | DIV
  | JMP
  | JMPF
  | JMPB
  | EQ
  | NEQ
  | GT
  | LT
  | GTQ
  | LTQ
  | JEQ
  | IGL
  | ALOC
  | INC
  | DEC
  | PRTS
  deriving DecidableEq, Repr, Fintype

/-- The byte the assembler emits for an opcode: the Rust enum
discriminant, i.e. the 0-based declaration position (`code as u8` in
AssemblerInstruction::to_bytes).  Note that IGL occupies 16, so ALOC is
17, INC 18, DEC 19 and PRTS 20. -/
def Opcode.toByte : Opcode → Nat
  | .HLT => 0
  | .LOAD => 1
  | .ADD => 2
  | .SUB => 3
  | .MUL => 4
  | .DIV => 5
  | .JMP => 6
  | .JMPF => 7
  | .JMPB => 8
  | .EQ => 9
  | .NEQ => 10
  | .GT => 11
  | .LT => 12
  | .GTQ => 13
  | .LTQ => 14
  | .JEQ => 15
  | .IGL => 16
  | .ALOC => 17
  | .INC => 18
  | .DEC => 19
  | .PRTS => 20

/-- The decode table `impl From<u8> for Opcode` from instruction.rs. -/
def Opcode.fromByte : Nat → Opcode
  | 0 => .HLT
  | 1 => .LOAD
  | 2 => .ADD
  | 3 => .SUB
  | 4 => .MUL
  | 5 => .DIV
  | 6 => .JMP
  | 7 => .JMPF
  | 8 => .JMPB
  | 9 => .EQ
  | 10 => .NEQ
  | 11 => .GT
  | 12 => .LT
  | 13 => .GTQ
  | 14 => .LTQ
  | 15 => .JEQ
  | 16 => .ALOC
  | 17 => .INC
  | 18 => .DEC
  | 19 => .PRTS
  | _ => .IGL

/-- The mnemonic table `impl From<CompleteStr> for Opcode` from
instruction.rs, applied to an already-lowercased mnemonic.  Unknown
mnemonics map to IGL. -/
def Opcode.fromMnemonic : String → Opcode
  | "load" => .LOAD
  | "add" => .ADD
  | "sub" => .SUB
  | "mul" => .MUL
  | "div" => .DIV
  | "hlt" => .HLT
  | "jmp" => .JMP
  | "jmpf" => .JMPF
  | "jmpb" => .JMPB
  | "eq" => .EQ
  | "neq" => .NEQ
  | "gte" => .GTQ
  | "gt" => .GT
  | "lte" => .LTQ
  | "lt" => .LT
  | "aloc" => .ALOC
  | "inc" => .INC
  | "dec" => .DEC
  | "prts" => .PRTS
  | _ => .IGL

/-! ## Tokens and assembler instructions (assembler/mod.rs,
assembler/instruction_parsers.rs) -/

/-- The Token enumeration from assembler/mod.rs. -/
inductive Token where
  | Op (code : Opcode)
  | Register (reg_num : Nat)
  | IntegerOperand (value : Int)
  | LabelDeclaration (name : String)
  | LabelUsage (name : String)
  | Directive (name : String)
  | IrString (name : String)
  deriving DecidableEq, Repr

/-- The AssemblerInstruction record from
assembler/instruction_parsers.rs: five optional token fields. -/
structure AssemblerInstruction where
  opcode : Option Token := none
  operand1 : Option Token := none
  operand2 : Option Token := none
  operand3 : Option Token := none
  label : Option Token := none
  directive : Option Token := none
  deriving DecidableEq, Repr

namespace AssemblerInstruction

/-- Models AssemblerInstruction::is_label. -/
def is_label (i : AssemblerInstruction) : Bool := i.label.isSome

/-- Models AssemblerInstruction::label_name: some only when the label
field holds a LabelDeclaration token. -/
def label_name (i : AssemblerInstruction) : Option String :=
  match i.label with
  | some (.LabelDeclaration name) => some name
  | _ => none

/-- Models AssemblerInstruction::is_directive. -/
def is_directive (i : AssemblerInstruction) : Bool := i.directive.isSome

/-- Models AssemblerInstruction::directive_name. -/
def directive_name (i : AssemblerInstruction) : Option String :=
  match i.directive with
  | some (.Directive name) => some name
  | _ => none

/-- Models AssemblerInstruction::is_opcode. -/
def is_opcode (i : AssemblerInstruction) : Bool := i.opcode.isSome

/-- Models AssemblerInstruction::has_operands (checks operand1 only). -/
def has_operands (i : AssemblerInstruction) : Bool := i.operand1.isSome

/-- Models AssemblerInstruction::get_string_constant (IrString in
operand1). -/
def get_string_constant (i : AssemblerInstruction) : Option String :=
  match i.operand1 with
  | some (.IrString name) => some name
  | _ => none

end AssemblerInstruction

/-! ## Symbols and the symbol table (assembler/mod.rs) -/

/-- The SymbolType enumeration (only Label exists). -/
inductive SymbolType where
  | Label
  deriving DecidableEq, Repr

/-- A Symbol from assembler/mod.rs: name, optional offset, type.
Symbol::new always stores some offset. -/
structure Symbol where
  name : String
  offset : Option Nat
  symbol_type : SymbolType
  deriving DecidableEq, Repr

/-- Models Symbol::new. -/
def Symbol.new (name : String) (st : SymbolType) (offset : Nat) : Symbol :=
  { name := name, offset := some offset, symbol_type := st }

/-- The symbol table is an append-only list of symbols. -/
abbrev SymbolTable := List Symbol

/-- Models SymbolTable::symbol_value: the offset of the first symbol
with the given name (itself an Option in the record), none if absent. -/
def symbol_value (t : SymbolTable) (s : String) : Option Nat :=
  match t with
  | [] => none
  | sym :: rest => if sym.name = s then sym.offset else symbol_value rest s

/-- Models SymbolTable::has_symbol. -/
def has_symbol (t : SymbolTable) (s : String) : Bool :=
  match t with
  | [] => false
  | sym :: rest => if sym.name = s then true else has_symbol rest s

/-- Models SymbolTable::set_symbol_offset: rewrites the offset of the
first symbol with the given name (the returned bool is discarded by the
caller in handle_asciiz, so only the updated table is modelled). -/
def set_symbol_offset (t : SymbolTable) (s : String) (offset : Nat) : SymbolTable :=
  match t with
  | [] => []
  | sym :: rest =>
    if sym.name = s then { sym with offset := some offset } :: rest
    else sym :: set_symbol_offset rest s offset

/-! ## The VM (vm.rs) -/

/-- The four magic bytes of the image header (PIE_HEADER_PREFIX in
assembler/mod.rs). -/
def pieHeaderMagic : List Nat := [45, 50, 49, 45]

/-- The image header length (PIE_HEADER_LENGTH in assembler/mod.rs). -/
def pieHeaderLength : Nat := 64

/-- The full 64-byte header: magic bytes then zero fill, as built by
Assembler::write_pie_header and vm.rs prepend_header. -/
def pieHeaderBytes : List Nat := pieHeaderMagic ++ List.replicate 60 0

/-- The VM state from vm.rs.  Registers are the 32 i32 registers as a
list of integers; program, heap and ro_data are byte vectors. -/
structure VM where
  registers : List Int
  pc : Nat
  program : List Nat
  remainder : Nat
  equal_flag : Bool
  heap : List Nat
  ro_data : List Nat
  deriving DecidableEq, Repr

/-- Models VM::new. -/
def VM.new : VM :=
  { registers := List.replicate 32 0
    pc := 0
    program := []
    remainder := 0
    equal_flag := false
    heap := []
    ro_data := [] }

/-- Models VM::next_8_bits: read one program byte at pc and advance pc.
Out-of-bounds read is a Rust panic, modelled as none. -/
def next8 (vm : VM) : Option (Nat × VM) :=
  (vm.program.get? vm.pc).map (fun b => (b, { vm with pc := vm.pc + 1 }))

/-- Models VM::next_16_bits: big-endian 16-bit read at pc, advancing pc
by 2.  Out-of-bounds read is a panic, modelled as none. -/
def next16 (vm : VM) : Option (Nat × VM) :=
  match vm.program.get? vm.pc, vm.program.get? (vm.pc + 1) with
  | some hi, some lo => some (hi * 256 + lo, { vm with pc := vm.pc + 2 })
  | _, _ => none

/-- Read of registers[r], modelling the Rust index expression; an index
at or past 32 panics (none). -/
def getReg (vm : VM) (r : Nat) : Option Int := vm.registers.get? r

/-- Write of registers[r], modelling the Rust index expression; an
index at or past 32 panics (none). -/
def setReg (vm : VM) (r : Nat) (v : Int) : Option VM :=
  if r < vm.registers.length then some { vm with registers := vm.registers.set r v }
  else none

/-- Truncating i32 division, modelling Rust `/` on i32: divide by zero
and MIN / -1 overflow panic (none). -/
def i32Div (a b : Int) : Option Int :=
  if b = 0 then none
  else if a = -(2 ^ 31 : Int) ∧ b = -1 then none
  else some (Int.tdiv a b)

/-- Truncating i32 remainder (sign of the dividend), modelling Rust `%`
on i32 for a nonzero divisor. -/
def i32Mod (a b : Int) : Int := Int.tmod a b

/-- Fuel-indexed body of the PRTS scan loop in
VM::execute_instruction: starting at off, walk ro until a zero byte and
return its index; an index past the end of ro is an out-of-bounds read
(a panic), modelled as none. -/
def scanLoop (ro : List Nat) : Nat → Nat → Option Nat
  | 0, _ => none
  | fuel + 1, off =>
    match ro.get? off with
    | none => none
    | some b => if b = 0 then some off else scanLoop ro fuel (off + 1)

/-- Models the PRTS scan loop exactly: the unbounded Rust loop either
finds a zero byte at an index below ro.length or panics when the index
reaches ro.length, so ro.length + 1 - off steps always suffice. -/
def scanZero (ro : List Nat) (off : Nat) : Option Nat :=
  scanLoop ro (ro.length + 1 - off) off

/-- Models VM::execute_instruction.  Returns some (done, vm) where done
is the is_done flag of the Rust function; none models a panic. -/
def executeInstruction (vm : VM) : Option (Bool × VM) :=
  if vm.pc ≥ vm.program.length then some (true, vm)
  else
    match vm.program.get? vm.pc with
    | none => some (true, vm)
    | some opbyte =>
      let vm := { vm with pc := vm.pc + 1 }
      match Opcode.fromByte opbyte with
      | .LOAD => do
        let (r, vm) ← next8 vm
        let (n, vm) ← next16 vm
        let vm ← setReg vm r (Int.ofNat n)
        pure (false, vm)
      | .ADD => do
        let (a, vm) ← next8 vm
        let r1 ← getReg vm a
        let (b, vm) ← next8 vm
        let r2 ← getReg vm b
        let (c, vm) ← next8 vm
        let vm ← setReg vm c (wrap32 (r1 + r2))
        pure (false, vm)
      | .SUB => do
        let (a, vm) ← next8 vm
        let r1 ← getReg vm a
        let (b, vm) ← next8 vm
        let r2 ← getReg vm b
        let (c, vm) ← next8 vm
        let vm ← setReg vm c (wrap32 (r1 - r2))
        pure (false, vm)
      | .MUL => do
        let (a, vm) ← next8 vm
        let r1 ← getReg vm a
        let (b, vm) ← next8 vm
        let r2 ← getReg vm b
        let (c, vm) ← next8 vm
        let vm ← setReg vm c (wrap32 (r1 * r2))
        pure (false, vm)
      | .DIV => do
        let (a, vm) ← next8 vm
        let r1 ← getReg vm a
        let (b, vm) ← next8 vm
        let r2 ← getReg vm b
        let (c, vm) ← next8 vm
        let q ← i32Div r1 r2
        let vm ← setReg vm c q
        pure (false, { vm with remainder := u32of (i32Mod r1 r2) })
      | .JMP => do
        let (a, vm) ← next8 vm
        let target ← getReg vm a
        pure (false, { vm with pc := usizeOf target })
      | .JMPF => do
        let (a, vm) ← next8 vm
        let v ← getReg vm a
        pure (false, { vm with pc := vm.pc + usizeOf v })
      | .JMPB => do
        let (a, vm) ← next8 vm
        let v ← getReg vm a
        if usizeOf v ≤ vm.pc then pure (false, { vm with pc := vm.pc - usizeOf v })
        else none
      | .EQ => do
        let (a, vm) ← next8 vm
        let r1 ← getReg vm a
        let (b, vm) ← next8 vm
        let r2 ← getReg vm b
        let vm := { vm with equal_flag := r1 = r2 }
        let (_, vm) ← next8 vm
        pure (false, vm)
      | .NEQ => do
        let (a, vm) ← next8 vm
        let r1 ← getReg vm a
        let (b, vm) ← next8 vm
        let r2 ← getReg vm b
        let vm := { vm with equal_flag := r1 ≠ r2 }
        let (_, vm) ← next8 vm
        pure (false, vm)
      | .GT => do
        let (a, vm) ← next8 vm
        let r1 ← getReg vm a
        let (b, vm) ← next8 vm
        let r2 ← getReg vm b
        let vm := { vm with equal_flag := r1 > r2 }
        let (_, vm) ← next8 vm
        pure (false, vm)
      | .LT => do
        let (a, vm) ← next8 vm
        let r1 ← getReg vm a
        let (b, vm) ← next8 vm
        let r2 ← getReg vm b
        let vm := { vm with equal_flag := r1 < r2 }
        let (_, vm) ← next8 vm
        pure (false, vm)
      | .GTQ => do
        let (a, vm) ← next8 vm
        let r1 ← getReg vm a
        let (b, vm) ← next8 vm
        let r2 ← getReg vm b
        let vm := { vm with equal_flag := r1 ≥ r2 }
        let (_, vm) ← next8 vm
        pure (false, vm)
      | .LTQ => do
        let (a, vm) ← next8 vm
        let r1 ← getReg vm a
        let (b, vm) ← next8 vm
        let r2 ← getReg vm b
        let vm := { vm with equal_flag := r1 ≤ r2 }
        let (_, vm) ← next8 vm
        pure (false, vm)
      | .JEQ => do
        let (a, vm) ← next8 vm
        let v ← getReg vm a
        if vm.equal_flag then pure (false, { vm with pc := usizeOf v })
        else pure (false, vm)
      | .ALOC => do
        let (a, vm) ← next8 vm
        let bytes ← getReg vm a
        let newEnd := usizeOf (wrap32 (Int.ofNat vm.heap.length + bytes))
        let heap :=
          if newEnd ≤ vm.heap.length then vm.heap.take newEnd
          else vm.heap ++ List.replicate (newEnd - vm.heap.length) 0
        pure (false, { vm with heap := heap })
      | .INC => do
        let (r, vm) ← next8 vm
        let v ← getReg vm r
        let vm ← setReg vm r (wrap32 (v + 1))
        pure (false, vm)
      | .DEC => do
        let (r, vm) ← next8 vm
        let v ← getReg vm r
        let vm ← setReg vm r (wrap32 (v - 1))
        pure (false, vm)
      | .PRTS => do
        let (off, vm) ← next16 vm
        let _ ← scanZero vm.ro_data off
        pure (false, vm)
      | .HLT => pure (true, vm)
      | .IGL => pure (true, vm)

/-- Models VM::verify_header: the slice expression program[0..4] panics
(none) when the program holds fewer than four bytes; otherwise compares
the first four bytes with the magic. -/
def verifyHeader (vm : VM) : Option Bool :=
  if vm.program.length < 4 then none
  else some (decide (vm.program.take 4 = pieHeaderMagic))

/-- The interpreter loop of VM::run, with explicit fuel.  Returns the
final VM state; none models either a panic or fuel exhaustion (the Rust
loop can run forever). -/
def runLoop : Nat → VM → Option VM
  | 0, _ => none
  | fuel + 1, vm =>
    match executeInstruction vm with
    | none => none
    | some (true, vm) => some vm
    | some (false, vm) => runLoop fuel vm

/-- Models VM::run: verify the header (status 1 on mismatch without
executing anything), else set pc to 64 and loop; status 0 on normal
termination. -/
def run (fuel : Nat) (vm : VM) : Option (Nat × VM) :=
  match verifyHeader vm with
  | none => none
  | some false => some (1, vm)
  | some true => (runLoop fuel { vm with pc := 64 }).map (fun v => (0, v))

/-! ## Byte emission (assembler/instruction_parsers.rs) -/

/-- Models AssemblerInstruction::extract_operand: bytes appended for one
operand token.  A Register token contributes its number; an integer or a
resolved label use contributes two big-endian bytes of the u16
truncation; an unresolved label use contributes nothing (a printed
diagnostic only).  Any other token makes the Rust code call
std::process::exit(1), modelled as none. -/
def extract_operand (t : Token) (symbols : SymbolTable) : Option (List Nat) :=
  match t with
  | .Register n => some [n]
  | .IntegerOperand v =>
    let converted := u16of v
    some [converted / 256, converted % 256]
  | .LabelUsage name =>
    match symbol_value symbols name with
    | some value =>
      let converted := value % 2 ^ 16
      some [converted / 256, converted % 256]
    | none => some []
  | _ => none

/-- Bytes for one operand slot in AssemblerInstruction::to_bytes: an
absent operand contributes nothing. -/
def operandBytes (operand : Option Token) (symbols : SymbolTable) : Option (List Nat) :=
  match operand with
  | some t => extract_operand t symbols
  | none => some []

/-- Models AssemblerInstruction::to_bytes: the opcode discriminant byte
(nothing but a printed diagnostic when the opcode field does not hold an
Op token) followed by the bytes of each present operand slot in order,
with no padding.  none models the process exit inside extract_operand. -/
def to_bytes (i : AssemblerInstruction) (symbols : SymbolTable) : Option (List Nat) := do
  let opbytes :=
    match i.opcode with
    | some (.Op code) => [code.toByte]
    | _ => []
  let b1 ← operandBytes i.operand1 symbols
  let b2 ← operandBytes i.operand2 symbols
  let b3 ← operandBytes i.operand3 symbols
  pure (opbytes ++ b1 ++ b2 ++ b3)

/-! ## Assembler driver (assembler/mod.rs) -/

/-- The error kinds accumulated by the assembler.  Modelled from the
spec: the file assembler/assembler_errors.rs is declared in
assembler/mod.rs but missing from src/; the constructors and their
payloads follow section 7 of the spec and the construction sites in
assembler/mod.rs. -/
inductive AssemblerError where
  | ParseError (error : String)
  | NoSegmentDeclarationFound (instruction : Nat)
  | SymbolAlreadyDeclared
  | UnknownDirectiveFound (directive : String)
  | InsufficientSections
  | StringConstantDeclaredWithoutLabel (instruction : Nat)
  deriving DecidableEq, Repr

/-- The AssemblerPhase enumeration. -/
inductive AssemblerPhase where
  | First
  | Second
  deriving DecidableEq, Repr

/-- The AssemblerSection enumeration from assembler/mod.rs. -/
inductive AssemblerSection where
  | Data (starting_instruction : Option Nat)
  | Code (starting_instruction : Option Nat)
  | Unknown
  deriving DecidableEq, Repr

/-- Models `impl From<&str> for AssemblerSection`. -/
def sectionFromName : String → AssemblerSection
  | "data" => .Data none
  | "code" => .Code none
  | _ => .Unknown

/-- The Assembler state from assembler/mod.rs (the bytecode field is
never written by the assemble path and is omitted). -/
structure Assembler where
  phase : AssemblerPhase
  symbols : SymbolTable
  ro : List Nat
  ro_offset : Nat
  sections : List AssemblerSection
  current_section : Option AssemblerSection
  current_instruction : Nat
  errors : List AssemblerError
  deriving DecidableEq, Repr

/-- Models Assembler::new. -/
def Assembler.new : Assembler :=
  { phase := .First
    symbols := []
    ro := []
    ro_offset := 0
    sections := []
    current_section := none
    current_instruction := 0
    errors := [] }

/-- Appends one error, modelling self.errors.push(e). -/
def pushError (st : Assembler) (e : AssemblerError) : Assembler :=
  { st with errors := st.errors ++ [e] }

/-- Models Assembler::process_label_declaration: on a missing name push
StringConstantDeclaredWithoutLabel; on a duplicate push
SymbolAlreadyDeclared; otherwise insert a Symbol at offset
current_instruction * 4 + 60. -/
def process_label_declaration (st : Assembler) (i : AssemblerInstruction) : Assembler :=
  match i.label_name with
  | none => pushError st (.StringConstantDeclaredWithoutLabel st.current_instruction)
  | some name =>
    if has_symbol st.symbols name then pushError st .SymbolAlreadyDeclared
    else
      { st with
        symbols := st.symbols ++ [Symbol.new name .Label (st.current_instruction * 4 + 60)] }

/-- Models Assembler::process_section_header: unknown names are ignored
with a printed diagnostic; data and code are appended to the sections
list and become the current section. -/
def process_section_header (st : Assembler) (header_name : String) : Assembler :=
  let new_section := sectionFromName header_name
  if new_section = .Unknown then st
  else { st with sections := st.sections ++ [new_section], current_section := some new_section }

/-- Models Assembler::handle_asciiz: only in the first phase, and only
when the instruction has both a string constant and a label, rewrite the
label offset to the current ro offset and append the string bytes plus a
zero terminator to ro, advancing the ro offset accordingly. -/
def handle_asciiz (st : Assembler) (i : AssemblerInstruction) : Assembler :=
  if st.phase ≠ .First then st
  else
    match i.get_string_constant with
    | none => st
    | some s =>
      match i.label_name with
      | none => st
      | some name =>
        let st := { st with symbols := set_symbol_offset st.symbols name st.ro_offset }
        let bytes := utf8Bytes s
        { st with
          ro := st.ro ++ bytes ++ [0]
          ro_offset := st.ro_offset + bytes.length + 1 }

/-- Models Assembler::process_directive. -/
def process_directive (st : Assembler) (i : AssemblerInstruction) : Assembler :=
  match i.directive_name with
  | none => st
  | some directive_name =>
    if i.has_operands then
      if directive_name = "asciiz" then handle_asciiz st i
      else pushError st (.UnknownDirectiveFound directive_name)
    else process_section_header st directive_name

/-- The label-handling part of the first-pass loop body in
Assembler::process_first_phase: labels are only processed when a
section has been opened, otherwise NoSegmentDeclarationFound is
recorded. -/
def labelStage (st : Assembler) (i : AssemblerInstruction) : Assembler :=
  if i.is_label then
    if st.current_section.isSome then process_label_declaration st i
    else pushError st (.NoSegmentDeclarationFound st.current_instruction)
  else st

/-- The directive-handling part of the first-pass loop body. -/
def directiveStage (st : Assembler) (i : AssemblerInstruction) : Assembler :=
  if i.is_directive then process_directive st i else st

/-- One step of the first-pass loop body in
Assembler::process_first_phase: label handling, then directive
handling, then the unconditional current_instruction increment. -/
def firstPhaseStep (st : Assembler) (i : AssemblerInstruction) : Assembler :=
  let st1 := directiveStage (labelStage st i) i
  { st1 with current_instruction := st1.current_instruction + 1 }

/-- Models Assembler::process_first_phase: fold the step over the
program, then switch to the second phase. -/
def process_first_phase (st : Assembler) (p : List AssemblerInstruction) : Assembler :=
  { p.foldl firstPhaseStep st with phase := .Second }

/-- One step of the second-pass loop body in
Assembler::process_second_phase.  none propagates the process exit
inside to_bytes. -/
def secondPhaseStep (acc : Assembler × List Nat) (i : AssemblerInstruction) :
    Option (Assembler × List Nat) := do
  let (st, program) := acc
  let program ←
    if i.is_opcode then do
      let bytes ← to_bytes i st.symbols
      pure (program ++ bytes)
    else pure program
  let st := if i.is_directive then process_directive st i else st
  pure ({ st with current_instruction := st.current_instruction + 1 }, program)

/-- Models Assembler::process_second_phase: reset current_instruction,
walk the program emitting bytes for opcode instructions and
re-dispatching directives. -/
def process_second_phase (st : Assembler) (p : List AssemblerInstruction) :
    Option (Assembler × List Nat) :=
  p.foldlM secondPhaseStep ({ st with current_instruction := 0 }, [])

/-- Models the post-parse part of Assembler::assemble: first pass;
abort with the accumulated errors if any; abort with
InsufficientSections unless exactly two sections were recorded; second
pass; header plus body.  none models the process exit reachable from
to_bytes. -/
def assembleProgram (p : List AssemblerInstruction) :
    Option (Except (List AssemblerError) (List Nat)) :=
  let st := process_first_phase Assembler.new p
  if st.errors ≠ [] then some (.error st.errors)
  else if st.sections.length ≠ 2 then
    some (.error (st.errors ++ [.InsufficientSections]))
  else
    match process_second_phase st p with
    | none => none
    | some (_, body) => some (.ok (pieHeaderBytes ++ body))

/-! ## Lexing and parsing (assembler/program_parsers.rs,
assembler/instruction_parsers.rs, assembler/directive_parsers.rs,
assembler/operand_parsers.rs, assembler/integer_parsers.rs)

The grammar is modelled at whitespace-separated token granularity:
under the ws-wrapped nom combinators of the source, spaces, tabs and
newlines only separate tokens (spec section 4.1).  The lexical
recognizers for label declarations, label usages, opcodes and registers
live in files declared in assembler/mod.rs but missing from src/
(label_parsers.rs, opcode_parsers.rs, register_parsers.rs); they are
modelled from the spec, and the register recognizer agrees with the
snapshot in assembler/opcode_parser.rs which parses a dollar sign
followed by digits with no range restriction. -/

/-- The single-quote character, used by the ir-string recognizer. -/
def quoteChar : Char := Char.ofNat 39

/-- Whitespace characters: space, tab, newline, carriage return. -/
def isWsChar (c : Char) : Bool :=
  c.toNat = 32 ∨ c.toNat = 9 ∨ c.toNat = 10 ∨ c.toNat = 13

/-- Numeric value of a digit string. -/
def natOfDigits (ds : List Char) : Nat :=
  ds.foldl (fun a c => a * 10 + (c.toNat - 48)) 0

/-- Identifier shape from spec section 4.1: a letter followed by
letters, digits or underscores. -/
def isIdentChars (t : List Char) : Bool :=
  match t with
  | [] => false
  | c :: rest => c.isAlpha ∧ rest.all (fun d => d.isAlphanum ∨ d = '_')

/-- One step of the tokenizer: split on whitespace, but keep a
single-quoted ir-string (which may contain whitespace) together as one
token.  The fold state is (inside-quote flag, current token, tokens so
far). -/
def tokenizeStep : Bool × List Char × List (List Char) → Char →
    Bool × List Char × List (List Char)
  | (true, cur, acc), c =>
    if c = quoteChar then (false, [], acc ++ [cur ++ [c]])
    else (true, cur ++ [c], acc)
  | (false, cur, acc), c =>
    if isWsChar c then
      if cur = [] then (false, [], acc) else (false, [], acc ++ [cur])
    else if c = quoteChar ∧ cur = [] then (true, [c], acc)
    else (false, cur ++ [c], acc)

/-- Tokenizer for an assembly source string. -/
def tokenize (s : String) : List String :=
  let (_, cur, acc) := s.data.foldl tokenizeStep (false, [], [])
  let acc := if cur = [] then acc else acc ++ [cur]
  acc.map (fun t => String.mk t)

/-- Modelled from the spec: the label-declaration recognizer of the
missing label_parsers.rs, an identifier immediately followed by a
colon. -/
def parseLabelDeclTok (t : List Char) : Option String :=
  if t.getLast? = some ':' ∧ isIdentChars t.dropLast then
    some (String.mk t.dropLast)
  else none

/-- Modelled from the spec: the opcode recognizer of the missing
opcode_parsers.rs, one or more alphabetic characters mapped through the
case-insensitive mnemonic table with unknown identifiers becoming
IGL. -/
def parseOpcodeTok (t : List Char) : Option Opcode :=
  if t ≠ [] ∧ t.all Char.isAlpha then
    some (Opcode.fromMnemonic (String.mk (t.map Char.toLower)))
  else none

/-- Modelled from the spec and the snapshot register recognizer in
assembler/opcode_parser.rs: a dollar sign followed by digits, the
digits parsed as an unsigned byte with no 0..31 restriction.  Digit
strings above 255 make the source unwrap panic; no claim exercises
them and they are conflated with parse failure here. -/
def parseRegisterTok (t : List Char) : Option Token :=
  match t with
  | c :: ds =>
    if c = '$' ∧ ds ≠ [] ∧ ds.all Char.isDigit ∧ natOfDigits ds ≤ 255 then
      some (.Register (natOfDigits ds))
    else none
  | [] => none

/-- Models the integer recognizer of assembler/integer_parsers.rs: a
hash sign followed by digits parsed as an i32.  Digit strings above the
i32 maximum make the source unwrap panic; no claim exercises them and
they are conflated with parse failure here. -/
def parseIntegerTok (t : List Char) : Option Token :=
  match t with
  | c :: ds =>
    if c = '#' ∧ ds ≠ [] ∧ ds.all Char.isDigit ∧ natOfDigits ds ≤ 2 ^ 31 - 1 then
      some (.IntegerOperand (Int.ofNat (natOfDigits ds)))
    else none
  | [] => none

/-- Modelled from the spec: the label-usage recognizer of the missing
label_parsers.rs, an at sign followed by an identifier. -/
def parseLabelUsageTok (t : List Char) : Option Token :=
  match t with
  | c :: rest =>
    if c = '@' ∧ isIdentChars rest then some (.LabelUsage (String.mk rest))
    else none
  | [] => none

/-- Models the operand alternation of assembler/operand_parsers.rs:
register, then integer, then label usage (ir-strings are not in the
alternation). -/
def parseOperandTok (t : List Char) : Option Token :=
  (parseRegisterTok t).orElse fun _ =>
    (parseIntegerTok t).orElse fun _ => parseLabelUsageTok t

/-- Models the directive-name recognizer of
assembler/directive_parsers.rs: a dot followed by one or more
alphabetic characters. -/
def parseDirectiveTok (t : List Char) : Option String :=
  match t with
  | c :: name =>
    if c = '.' ∧ name ≠ [] ∧ name.all Char.isAlpha then some (String.mk name)
    else none
  | [] => none

/-- Optional leading label declaration. -/
def takeLabel (ts : List String) : Option Token × List String :=
  match ts with
  | t :: rest =>
    match parseLabelDeclTok t.data with
    | some n => (some (.LabelDeclaration n), rest)
    | none => (none, ts)
  | [] => (none, ts)

/-- Optional operand. -/
def takeOperand (ts : List String) : Option Token × List String :=
  match ts with
  | t :: rest =>
    match parseOperandTok t.data with
    | some tok => (some tok, rest)
    | none => (none, ts)
  | [] => (none, ts)

/-- Models instruction_combined from assembler/instruction_parsers.rs:
optional label, an opcode, then up to three optional operands. -/
def parseInstructionCombined (ts : List String) :
    Option (AssemblerInstruction × List String) :=
  let (l, ts1) := takeLabel ts
  match ts1 with
  | [] => none
  | t :: rest =>
    match parseOpcodeTok t.data with
    | none => none
    | some code =>
      let (o1, r1) := takeOperand rest
      let (o2, r2) := takeOperand r1
      let (o3, r3) := takeOperand r2
      some
        ({ opcode := some (.Op code), operand1 := o1, operand2 := o2,
           operand3 := o3, label := l, directive := none }, r3)

/-- Models directive_combined from assembler/directive_parsers.rs:
optional label, a directive name, then up to three optional operands. -/
def parseDirectiveCombined (ts : List String) :
    Option (AssemblerInstruction × List String) :=
  let (l, ts1) := takeLabel ts
  match ts1 with
  | [] => none
  | t :: rest =>
    match parseDirectiveTok t.data with
    | none => none
    | some name =>
      let (o1, r1) := takeOperand rest
      let (o2, r2) := takeOperand r1
      let (o3, r3) := takeOperand r2
      some
        ({ opcode := none, operand1 := o1, operand2 := o2,
           operand3 := o3, label := l, directive := some (.Directive name) }, r3)

/-- Models the instruction alternation of
assembler/instruction_parsers.rs: instruction_combined first, then
directive_combined. -/
def parseOneInstruction (ts : List String) :
    Option (AssemblerInstruction × List String) :=
  (parseInstructionCombined ts).orElse fun _ => parseDirectiveCombined ts

/-- Greedy repetition with fuel; every successful parse consumes at
least one token, so token-count fuel suffices. -/
def parseManyAux : Nat → List String → List AssemblerInstruction × List String
  | 0, ts => ([], ts)
  | fuel + 1, ts =>
    match parseOneInstruction ts with
    | none => ([], ts)
    | some (i, rest) =>
      let (is, r) := parseManyAux fuel rest
      (i :: is, r)

/-- Models the program parser of assembler/program_parsers.rs
(many1 of instruction): at least one instruction, the longest prefix
that parses, together with the unparsed remainder. -/
def parseProgram (ts : List String) :
    Option (List AssemblerInstruction × List String) :=
  match parseManyAux (ts.length + 1) ts with
  | ([], _) => none
  | (is, rest) => some (is, rest)

/-- Models Assembler::assemble on a source string: parse failure yields
a single ParseError; on success the unparsed remainder is discarded
(the source has a TODO noting the missing remainder check) and the
parsed program is assembled. -/
def assembleSource (s : String) : Option (Except (List AssemblerError) (List Nat)) :=
  match parseProgram (tokenize s) with
  | none => some (.error [.ParseError "parse error"])
  | some (p, _) => assembleProgram p

/-! ## Auxiliary definitions used by the theorems -/

/-- The operand tokens that AssemblerInstruction::extract_operand
handles without reaching process exit: registers, integers and label
usages (exactly the tokens the operand parser can produce). -/
def tokenOperandOk : Token → Bool
  | .Register _ => true
  | .IntegerOperand _ => true
  | .LabelUsage _ => true
  | _ => false

/-- An operand slot is fine when absent or holding an operand token. -/
def slotOk : Option Token → Bool
  | none => true
  | some t => tokenOperandOk t

/-- All three operand slots hold operand tokens (or nothing). -/
def operandsOk (i : AssemblerInstruction) : Bool :=
  slotOk i.operand1 && slotOk i.operand2 && slotOk i.operand3

/-- Every opcode-bearing instruction of the program has well-formed
operand slots, so the second pass cannot reach the process exit. -/
def secondOk (p : List AssemblerInstruction) : Bool :=
  p.all fun i => !i.is_opcode || operandsOk i

/-- The number of bytes one operand slot contributes at emission time:
one for a register, two for an integer, two for a resolved label usage,
zero for an unresolved label usage or an absent operand. -/
def opWidth (o : Option Token) (symbols : SymbolTable) : Nat :=
  match o with
  | none => 0
  | some (.Register _) => 1
  | some (.IntegerOperand _) => 2
  | some (.LabelUsage name) =>
    match symbol_value symbols name with
    | some _ => 2
    | none => 0
  | some _ => 0

/-- A two-instruction program: a .code section header, then a labelled
hlt at source index 1. -/
def c2prog : List AssemblerInstruction :=
  [{ directive := some (.Directive "code") },
   { label := some (.LabelDeclaration "lbl"), opcode := some (.Op .HLT) }]

/-- A parsed program declaring a string constant under .data. -/
def c8prog : List AssemblerInstruction :=
  [{ directive := some (.Directive "data") },
   { label := some (.LabelDeclaration "hello"),
     directive := some (.Directive "asciiz"),
     operand1 := some (.IrString "Hi") },
   { directive := some (.Directive "code") }]

/-- The DIV scenario source from the spec. -/
def c9src : String := ".data\n.code\n load $0 #10\n load $1 #3\n div $0 $1 $2\n hlt"

/-- The image the assembler produces for c9src. -/
def c9img : List Nat := pieHeaderBytes ++ [1, 0, 0, 10, 1, 1, 0, 3, 5, 0, 1, 2, 0]

/-- A source whose final non-blank line parses as no instruction. -/
def c6src : String := ".data\n.code\nload $0 #100\n)))"

/-- The image the assembler nevertheless produces for c6src. -/
def c6img : List Nat := pieHeaderBytes ++ [1, 0, 0, 100]

/-- A source with two .code sections and no .data section. -/
def c5srcA : String := ".code\n.code\nhlt"

/-- A source with one .data section and two .code sections. -/
def c5srcB : String := ".data\n.code\n.code\nhlt"

/-- A parsed program with one .data and one .code section. -/
def c5progW : List AssemblerInstruction :=
  [{ directive := some (.Directive "data") },
   { directive := some (.Directive "code") },
   { opcode := some (.Op .HLT) }]

/-! ## Helper lemmas about the symbol table -/

lemma symbol_value_append_some {syms : SymbolTable} {n : String} {o : Nat}
    (l : SymbolTable) (h : symbol_value syms n = some o) :
    symbol_value (syms ++ l) n = some o := by
  induction syms with
  | nil => simp [symbol_value] at h
  | cons s rest ih =>
    by_cases hn : s.name = n
    · simpa [symbol_value, hn] using (by simpa [symbol_value, hn] using h)
    · simpa [symbol_value, hn] using ih (by simpa [symbol_value, hn] using h)

lemma has_symbol_of_symbol_value {syms : SymbolTable} {n : String} {o : Nat}
    (h : symbol_value syms n = some o) : has_symbol syms n = true := by
  induction syms with
  | nil => simp [symbol_value] at h
  | cons s rest ih =>
    by_cases hn : s.name = n
    · simp [has_symbol, hn]
    · simpa [has_symbol, hn] using ih (by simpa [symbol_value, hn] using h)

lemma symbol_value_append_fresh {syms : SymbolTable} {n : String}
    (v : Nat) (h : has_symbol syms n = false) :
    symbol_value (syms ++ [Symbol.new n .Label v]) n = some v := by
  induction syms with
  | nil => simp [symbol_value, Symbol.new]
  | cons s rest ih =>
    have hn : s.name ≠ n := by
      intro hc
      simp [has_symbol, hc] at h
    have h2 : has_symbol rest n = false := by simpa [has_symbol, hn] using h
    simpa [symbol_value, hn] using ih h2

lemma symbol_value_sso_ne {syms : SymbolTable} {n m : String}
    (v : Nat) (hne : n ≠ m) :
    symbol_value (set_symbol_offset syms m v) n = symbol_value syms n := by
  induction syms with
  | nil => simp [set_symbol_offset]
  | cons s rest ih =>
    by_cases hm : s.name = m
    · have hmn : m ≠ n := fun hc => hne hc.symm
      simp [set_symbol_offset, symbol_value, hm, hmn]
    · by_cases hn : s.name = n
      · simp [set_symbol_offset, symbol_value, hm, hn, hne]
      · simpa [set_symbol_offset, symbol_value, hm, hn] using ih

lemma symbol_value_sso_fresh {syms : SymbolTable} {n : String}
    (v0 v : Nat) (h : has_symbol syms n = false) :
    symbol_value (set_symbol_offset (syms ++ [Symbol.new n .Label v0]) n v) n = some v := by
  induction syms with
  | nil => simp [set_symbol_offset, symbol_value, Symbol.new]
  | cons s rest ih =>
    have hn : s.name ≠ n := by
      intro hc
      simp [has_symbol, hc] at h
    have h2 : has_symbol rest n = false := by simpa [has_symbol, hn] using h
    simpa [set_symbol_offset, symbol_value, hn] using ih h2

/-! ## Helper lemmas about the first-pass step -/

lemma label_name_none_of_no_label {i : AssemblerInstruction}
    (h : i.is_label = false) : i.label_name = none := by
  unfold AssemblerInstruction.is_label at h
  unfold AssemblerInstruction.label_name
  cases hl : i.label with
  | none => rfl
  | some t => simp [hl] at h

lemma pld_errors (st : Assembler) (i : AssemblerInstruction) :
    ∃ t, (process_label_declaration st i).errors = st.errors ++ t := by
  unfold process_label_declaration pushError
  cases i.label_name with
  | none => exact ⟨_, rfl⟩
  | some name =>
    by_cases h : has_symbol st.symbols name
    · simp only [h]
      exact ⟨_, rfl⟩
    · simp only [h]
      exact ⟨[], by simp⟩

lemma pld_symbols_frame (st : Assembler) (i : AssemblerInstruction) :
    (process_label_declaration st i).ro = st.ro ∧
    (process_label_declaration st i).ro_offset = st.ro_offset ∧
    (process_label_declaration st i).current_instruction = st.current_instruction ∧
    (process_label_declaration st i).phase = st.phase ∧
    (process_label_declaration st i).current_section = st.current_section ∧
    (process_label_declaration st i).sections = st.sections := by
  unfold process_label_declaration pushError
  cases i.label_name with
  | none => exact ⟨rfl, rfl, rfl, rfl, rfl, rfl⟩
  | some name =>
    by_cases h : has_symbol st.symbols name <;> simp only [h] <;>
      exact ⟨rfl, rfl, rfl, rfl, rfl, rfl⟩

lemma psh_frame (st : Assembler) (n : String) :
    (process_section_header st n).errors = st.errors ∧
    (process_section_header st n).symbols = st.symbols ∧
    (process_section_header st n).ro = st.ro ∧
    (process_section_header st n).ro_offset = st.ro_offset ∧
    (process_section_header st n).current_instruction = st.current_instruction ∧
    (process_section_header st n).phase = st.phase := by
  by_cases h : sectionFromName n = .Unknown <;>
    simp [process_section_header, h]

lemma ha_errors_frame (st : Assembler) (i : AssemblerInstruction) :
    (handle_asciiz st i).errors = st.errors ∧
    (handle_asciiz st i).current_instruction = st.current_instruction ∧
    (handle_asciiz st i).phase = st.phase ∧
    (handle_asciiz st i).current_section = st.current_section ∧
    (handle_asciiz st i).sections = st.sections := by
  unfold handle_asciiz
  by_cases hp : st.phase ≠ .First
  · simp [hp]
  · simp only [if_neg hp]
    cases hs : i.get_string_constant with
    | none => simp
    | some s =>
      cases hn : i.label_name with
      | none => simp
      | some name => simp

lemma pd_errors (st : Assembler) (i : AssemblerInstruction) :
    ∃ t, (process_directive st i).errors = st.errors ++ t := by
  unfold process_directive
  cases i.directive_name with
  | none => exact ⟨[], by simp⟩
  | some dn =>
    by_cases ho : i.has_operands
    · by_cases ha : dn = "asciiz"
      · simp only [ho, ha, if_true]
        exact ⟨[], by simp [(ha_errors_frame st i).1]⟩
      · simp only [ho, ha, if_true, if_false]
        exact ⟨[.UnknownDirectiveFound dn], rfl⟩
    · simp only [ho, Bool.false_eq_true, if_false]
      exact ⟨[], by simp [(psh_frame st dn).1]⟩

lemma labelStage_errors (st : Assembler) (i : AssemblerInstruction) :
    ∃ t, (labelStage st i).errors = st.errors ++ t := by
  unfold labelStage
  by_cases hl : i.is_label
  · by_cases hcs : st.current_section.isSome
    · simpa [hl, hcs] using pld_errors st i
    · simp only [hl, hcs, if_true, if_false, Bool.false_eq_true]
      exact ⟨[.NoSegmentDeclarationFound st.current_instruction], rfl⟩
  · simp only [hl, Bool.false_eq_true, if_false]
    exact ⟨[], by simp⟩

lemma directiveStage_errors (st : Assembler) (i : AssemblerInstruction) :
    ∃ t, (directiveStage st i).errors = st.errors ++ t := by
  unfold directiveStage
  by_cases hd : i.is_directive
  · simpa [hd] using pd_errors st i
  · simp only [hd, Bool.false_eq_true, if_false]
    exact ⟨[], by simp⟩

lemma step_errors (st : Assembler) (i : AssemblerInstruction) :
    ∃ t, (firstPhaseStep st i).errors = st.errors ++ t := by
  obtain ⟨t1, e1⟩ := labelStage_errors st i
  obtain ⟨t2, e2⟩ := directiveStage_errors (labelStage st i) i
  exact ⟨t1 ++ t2, by simp [firstPhaseStep, e2, e1]⟩

lemma pld_success (st : Assembler) (i : AssemblerInstruction) (n : String)
    (hn : i.label_name = some n) (hfresh : has_symbol st.symbols n = false) :
    process_label_declaration st i =
      { st with symbols := st.symbols ++ [Symbol.new n .Label (st.current_instruction * 4 + 60)] } := by
  unfold process_label_declaration
  simp [hn, hfresh]

lemma ha_action (st : Assembler) (i : AssemblerInstruction) (s : String) (n : String)
    (hph : st.phase = .First) (hs : i.get_string_constant = some s)
    (hn : i.label_name = some n) :
    handle_asciiz st i =
      { st with symbols := set_symbol_offset st.symbols n st.ro_offset
                ro := st.ro ++ utf8Bytes s ++ [0]
                ro_offset := st.ro_offset + (utf8Bytes s).length + 1 } := by
  unfold handle_asciiz
  simp [hph, hs, hn]

lemma ha_ro_mono (st : Assembler) (i : AssemblerInstruction) :
    ∃ t, (handle_asciiz st i).ro = st.ro ++ t := by
  unfold handle_asciiz
  by_cases hp : st.phase ≠ .First
  · exact ⟨[], by simp [hp]⟩
  · simp only [if_neg hp]
    cases hs : i.get_string_constant with
    | none => exact ⟨[], by simp⟩
    | some s =>
      cases hn : i.label_name with
      | none => exact ⟨[], by simp⟩
      | some m => exact ⟨utf8Bytes s ++ [0], by simp⟩

lemma ha_ro_offset_inv (st : Assembler) (i : AssemblerInstruction)
    (h : st.ro_offset = st.ro.length) :
    (handle_asciiz st i).ro_offset = (handle_asciiz st i).ro.length := by
  unfold handle_asciiz
  by_cases hp : st.phase ≠ .First
  · simp [hp, h]
  · simp only [if_neg hp]
    cases hs : i.get_string_constant with
    | none => exact h
    | some s =>
      cases hn : i.label_name with
      | none => exact h
      | some m =>
        simp [h]
        omega

lemma ha_symbols_cases (st : Assembler) (i : AssemblerInstruction) :
    (handle_asciiz st i).symbols = st.symbols ∨
    (∃ m, i.label_name = some m ∧
      (handle_asciiz st i).symbols = set_symbol_offset st.symbols m st.ro_offset) := by
  unfold handle_asciiz
  by_cases hp : st.phase ≠ .First
  · left
    simp [hp]
  · simp only [if_neg hp]
    cases hs : i.get_string_constant with
    | none => left; rfl
    | some s =>
      cases hn : i.label_name with
      | none => left; rfl
      | some m =>
        right
        exact ⟨m, rfl, by simp⟩

lemma pd_symbols_cases (st : Assembler) (i : AssemblerInstruction) :
    (process_directive st i).symbols = st.symbols ∨
    (∃ m, i.label_name = some m ∧
      (process_directive st i).symbols = set_symbol_offset st.symbols m st.ro_offset) := by
  unfold process_directive
  cases hd : i.directive_name with
  | none => left; rfl
  | some dn =>
    by_cases ho : i.has_operands
    · by_cases ha : dn = "asciiz"
      · simpa only [ho, ha, if_true] using ha_symbols_cases st i
      · left
        simp [ho, ha, pushError]
    · left
      simp only [ho, Bool.false_eq_true, if_false]
      exact (psh_frame st dn).2.1

lemma pd_ro_mono (st : Assembler) (i : AssemblerInstruction) :
    ∃ t, (process_directive st i).ro = st.ro ++ t := by
  unfold process_directive
  cases hd : i.directive_name with
  | none => exact ⟨[], by simp⟩
  | some dn =>
    by_cases ho : i.has_operands
    · by_cases ha : dn = "asciiz"
      · simpa only [ho, ha, if_true] using ha_ro_mono st i
      · exact ⟨[], by simp [ho, ha, pushError]⟩
    · simp only [ho, Bool.false_eq_true, if_false]
      exact ⟨[], by simp [(psh_frame st dn).2.2.1]⟩

lemma pd_ro_offset_inv (st : Assembler) (i : AssemblerInstruction)
    (h : st.ro_offset = st.ro.length) :
    (process_directive st i).ro_offset = (process_directive st i).ro.length := by
  unfold process_directive
  cases hd : i.directive_name with
  | none => exact h
  | some dn =>
    by_cases ho : i.has_operands
    · by_cases ha : dn = "asciiz"
      · simpa only [ho, ha, if_true] using ha_ro_offset_inv st i h
      · simpa [ho, ha, pushError] using h
    · simp only [ho, Bool.false_eq_true, if_false]
      rw [(psh_frame st dn).2.2.2.1, (psh_frame st dn).2.2.1]
      exact h

lemma pd_ci (st : Assembler) (i : AssemblerInstruction) :
    (process_directive st i).current_instruction = st.current_instruction := by
  unfold process_directive
  cases hd : i.directive_name with
  | none => rfl
  | some dn =>
    by_cases ho : i.has_operands
    · by_cases ha : dn = "asciiz"
      · simpa only [ho, ha, if_true] using (ha_errors_frame st i).2.1
      · simp [ho, ha, pushError]
    · simp only [ho, Bool.false_eq_true, if_false]
      exact (psh_frame st dn).2.2.2.2.1

lemma pd_phase (st : Assembler) (i : AssemblerInstruction) :
    (process_directive st i).phase = st.phase := by
  unfold process_directive
  cases hd : i.directive_name with
  | none => rfl
  | some dn =>
    by_cases ho : i.has_operands
    · by_cases ha : dn = "asciiz"
      · simpa only [ho, ha, if_true] using (ha_errors_frame st i).2.2.1
      · simp [ho, ha, pushError]
    · simp only [ho, Bool.false_eq_true, if_false]
      exact (psh_frame st dn).2.2.2.2.2

lemma labelStage_cases (st : Assembler) (i : AssemblerInstruction) :
    ((labelStage st i).symbols = st.symbols ∧
      ∃ e, (labelStage st i).errors = st.errors ++ [e]) ∨
    (labelStage st i = st ∧ i.label_name = none) ∨
    (∃ n, i.label_name = some n ∧ has_symbol st.symbols n = false ∧
      labelStage st i =
        { st with symbols := st.symbols ++ [Symbol.new n .Label (st.current_instruction * 4 + 60)] }) := by
  unfold labelStage
  by_cases hl : i.is_label
  · by_cases hcs : st.current_section.isSome
    · simp only [hl, hcs, if_true]
      cases hn : i.label_name with
      | none =>
        left
        constructor
        · unfold process_label_declaration
          simp [hn, pushError]
        · exact ⟨.StringConstantDeclaredWithoutLabel st.current_instruction,
            by unfold process_label_declaration; simp [hn, pushError]⟩
      | some n =>
        by_cases hdup : has_symbol st.symbols n
        · left
          constructor
          · unfold process_label_declaration
            simp [hn, hdup, pushError]
          · exact ⟨.SymbolAlreadyDeclared,
            by unfold process_label_declaration; simp [hn, hdup, pushError]⟩
        · right; right
          exact ⟨n, rfl, by simpa using hdup,
            pld_success st i n hn (by simpa using hdup)⟩
    · simp only [hl, hcs, if_true, Bool.false_eq_true, if_false]
      left
      exact ⟨rfl, ⟨.NoSegmentDeclarationFound st.current_instruction, rfl⟩⟩
  · right; left
    constructor
    · simp [hl]
    · exact label_name_none_of_no_label (by simpa using hl)

lemma labelStage_frame (st : Assembler) (i : AssemblerInstruction) :
    (labelStage st i).ro = st.ro ∧
    (labelStage st i).ro_offset = st.ro_offset ∧
    (labelStage st i).current_instruction = st.current_instruction ∧
    (labelStage st i).phase = st.phase := by
  unfold labelStage
  by_cases hl : i.is_label
  · by_cases hcs : st.current_section.isSome
    · simp only [hl, hcs, if_true]
      have h := pld_symbols_frame st i
      exact ⟨h.1, h.2.1, h.2.2.1, h.2.2.2.1⟩
    · simp [hl, hcs, pushError]
  · simp [hl]

lemma directiveStage_symbols_cases (st : Assembler) (i : AssemblerInstruction) :
    (directiveStage st i).symbols = st.symbols ∨
    (∃ m, i.label_name = some m ∧
      (directiveStage st i).symbols = set_symbol_offset st.symbols m st.ro_offset) := by
  unfold directiveStage
  by_cases hd : i.is_directive
  · simpa only [hd, if_true] using pd_symbols_cases st i
  · left
    simp [hd]

lemma step_ci (st : Assembler) (i : AssemblerInstruction) :
    (firstPhaseStep st i).current_instruction = st.current_instruction + 1 := by
  unfold firstPhaseStep directiveStage
  by_cases hd : i.is_directive
  · simp only [hd, if_true]
    rw [pd_ci, (labelStage_frame st i).2.2.1]
  · simp only [hd, Bool.false_eq_true, if_false]
    rw [(labelStage_frame st i).2.2.1]

lemma step_phase (st : Assembler) (i : AssemblerInstruction) :
    (firstPhaseStep st i).phase = st.phase := by
  unfold firstPhaseStep directiveStage
  by_cases hd : i.is_directive
  · simp only [hd, if_true]
    rw [pd_phase, (labelStage_frame st i).2.2.2]
  · simp only [hd, Bool.false_eq_true, if_false]
    rw [(labelStage_frame st i).2.2.2]

lemma step_ro_mono (st : Assembler) (i : AssemblerInstruction) :
    ∃ t, (firstPhaseStep st i).ro = st.ro ++ t := by
  unfold firstPhaseStep directiveStage
  by_cases hd : i.is_directive
  · simp only [hd, if_true]
    obtain ⟨t, ht⟩ := pd_ro_mono (labelStage st i) i
    exact ⟨t, by simpa [(labelStage_frame st i).1] using ht⟩
  · simp only [hd, Bool.false_eq_true, if_false]
    exact ⟨[], by simp [(labelStage_frame st i).1]⟩

lemma step_ro_offset_inv (st : Assembler) (i : AssemblerInstruction)
    (h : st.ro_offset = st.ro.length) :
    (firstPhaseStep st i).ro_offset = (firstPhaseStep st i).ro.length := by
  unfold firstPhaseStep directiveStage
  have hfr := labelStage_frame st i
  have h1 : (labelStage st i).ro_offset = (labelStage st i).ro.length := by
    rw [hfr.1, hfr.2.1]
    exact h
  by_cases hd : i.is_directive
  · simp only [hd, if_true]
    exact pd_ro_offset_inv (labelStage st i) i h1
  · simp only [hd, Bool.false_eq_true, if_false]
    exact h1

lemma is_directive_of_directive_name {i : AssemblerInstruction} {dn : String}
    (h : i.directive_name = some dn) : i.is_directive = true := by
  unfold AssemblerInstruction.directive_name at h
  unfold AssemblerInstruction.is_directive
  cases hd : i.directive with
  | none => rw [hd] at h; cases h
  | some t => simp [hd]

lemma has_operands_of_string_constant {i : AssemblerInstruction} {s : String}
    (h : i.get_string_constant = some s) : i.has_operands = true := by
  unfold AssemblerInstruction.get_string_constant at h
  unfold AssemblerInstruction.has_operands
  cases ho : i.operand1 with
  | none => rw [ho] at h; cases h
  | some t => simp [ho]

lemma step_preserves_symbol_value (st : Assembler) (i : AssemblerInstruction)
    (n : String) (o : Nat)
    (he : (firstPhaseStep st i).errors = [])
    (hv : symbol_value st.symbols n = some o) :
    symbol_value (firstPhaseStep st i).symbols n = some o := by
  have hstep : (firstPhaseStep st i).symbols = (directiveStage (labelStage st i) i).symbols := rfl
  have herr : (firstPhaseStep st i).errors = (directiveStage (labelStage st i) i).errors := rfl
  rw [hstep]
  rcases labelStage_cases st i with ⟨hsym, e, herr1⟩ | ⟨heq, hnone⟩ | ⟨m, hm, hfresh, heq⟩
  · exfalso
    obtain ⟨t2, herr2⟩ := directiveStage_errors (labelStage st i) i
    rw [herr, herr2, herr1] at he
    simp at he
  · rw [heq]
    rcases directiveStage_symbols_cases st i with h | ⟨m, hm, _⟩
    · rw [h]
      exact hv
    · rw [hnone] at hm
      cases hm
  · have hv1 : symbol_value (labelStage st i).symbols n = some o := by
      rw [heq]
      exact symbol_value_append_some _ hv
    rcases directiveStage_symbols_cases (labelStage st i) i with h | ⟨m2, hm2, hsso⟩
    · rw [h]
      exact hv1
    · have hmm : m = m2 := by
        rw [hm] at hm2
        injection hm2
      have hn_true : has_symbol st.symbols n = true := has_symbol_of_symbol_value hv
      have hne : n ≠ m2 := by
        intro hc
        rw [← hmm] at hc
        rw [hc] at hn_true
        rw [hfresh] at hn_true
        cases hn_true
      rw [hsso, symbol_value_sso_ne _ hne]
      exact hv1

lemma pd_symbols_of_not_asciiz (st : Assembler) (i : AssemblerInstruction)
    (hno : ¬(i.directive_name = some "asciiz" ∧ i.has_operands = true ∧
      i.get_string_constant.isSome = true)) :
    (process_directive st i).symbols = st.symbols := by
  unfold process_directive
  cases hd : i.directive_name with
  | none => rfl
  | some dn =>
    by_cases ho : i.has_operands
    · by_cases ha : dn = "asciiz"
      · subst ha
        unfold handle_asciiz
        by_cases hp : st.phase ≠ .First
        · simp [ho, hp]
        · simp only [ho, if_true, if_neg hp]
          cases hs : i.get_string_constant with
          | none => rfl
          | some s =>
            exact absurd ⟨hd, ho, by simp [hs]⟩ hno
      · simp [ho, ha, pushError]
    · simp only [ho, Bool.false_eq_true, if_false]
      exact (psh_frame st dn).2.1

lemma step_establishes_label (st : Assembler) (i : AssemblerInstruction) (n : String)
    (he : (firstPhaseStep st i).errors = [])
    (hn : i.label_name = some n)
    (hno : ¬(i.directive_name = some "asciiz" ∧ i.has_operands = true ∧
      i.get_string_constant.isSome = true)) :
    symbol_value (firstPhaseStep st i).symbols n =
      some (st.current_instruction * 4 + 60) := by
  have hstep : (firstPhaseStep st i).symbols = (directiveStage (labelStage st i) i).symbols := rfl
  have herr : (firstPhaseStep st i).errors = (directiveStage (labelStage st i) i).errors := rfl
  rw [hstep]
  rcases labelStage_cases st i with ⟨hsym, e, herr1⟩ | ⟨heq, hnone⟩ | ⟨m, hm, hfresh, heq⟩
  · exfalso
    obtain ⟨t2, herr2⟩ := directiveStage_errors (labelStage st i) i
    rw [herr, herr2, herr1] at he
    simp at he
  · rw [hn] at hnone
    cases hnone
  · have hmn : m = n := by
      rw [hm] at hn
      injection hn
    subst hmn
    have hv1 : symbol_value (labelStage st i).symbols m =
        some (st.current_instruction * 4 + 60) := by
      rw [heq]
      exact symbol_value_append_fresh _ hfresh
    unfold directiveStage
    by_cases hd : i.is_directive
    · simp only [hd, if_true]
      rw [pd_symbols_of_not_asciiz (labelStage st i) i hno]
      exact hv1
    · simp only [hd, Bool.false_eq_true, if_false]
      exact hv1

lemma step_establishes_asciiz (st : Assembler) (i : AssemblerInstruction)
    (n s : String)
    (he : (firstPhaseStep st i).errors = [])
    (hn : i.label_name = some n)
    (hd : i.directive_name = some "asciiz")
    (hs : i.get_string_constant = some s)
    (hph : st.phase = .First) :
    symbol_value (firstPhaseStep st i).symbols n = some st.ro_offset ∧
    (firstPhaseStep st i).ro = st.ro ++ (utf8Bytes s ++ [0]) := by
  have hstep : (firstPhaseStep st i).symbols = (directiveStage (labelStage st i) i).symbols := rfl
  have hstepro : (firstPhaseStep st i).ro = (directiveStage (labelStage st i) i).ro := rfl
  have herr : (firstPhaseStep st i).errors = (directiveStage (labelStage st i) i).errors := rfl
  rcases labelStage_cases st i with ⟨hsym, e, herr1⟩ | ⟨heq, hnone⟩ | ⟨m, hm, hfresh, heq⟩
  · exfalso
    obtain ⟨t2, herr2⟩ := directiveStage_errors (labelStage st i) i
    rw [herr, herr2, herr1] at he
    simp at he
  · rw [hn] at hnone
    cases hnone
  · have hmn : m = n := by
      rw [hm] at hn
      injection hn
    subst hmn
    have hdir : i.is_directive = true := is_directive_of_directive_name hd
    have hop : i.has_operands = true := has_operands_of_string_constant hs
    have hds : directiveStage (labelStage st i) i = handle_asciiz (labelStage st i) i := by
      unfold directiveStage process_directive
      rw [hd]
      simp [hdir, hop]
    have hph1 : (labelStage st i).phase = .First := by
      rw [(labelStage_frame st i).2.2.2]
      exact hph
    have hha := ha_action (labelStage st i) i s m hph1 hs hn
    constructor
    · rw [hstep, hds, hha]
      have : (labelStage st i).symbols = st.symbols ++ [Symbol.new m .Label (st.current_instruction * 4 + 60)] := by
        rw [heq]
      rw [this]
      simp only
      rw [(labelStage_frame st i).2.1]
      exact symbol_value_sso_fresh _ _ hfresh
    · rw [hstepro, hds, hha]
      simp only
      rw [(labelStage_frame st i).1]
      simp

/-! ## Fold lemmas over the first pass -/

lemma foldl_errors (p : List AssemblerInstruction) (st : Assembler) :
    ∃ t, (p.foldl firstPhaseStep st).errors = st.errors ++ t := by
  induction p generalizing st with
  | nil => exact ⟨[], by simp⟩
  | cons i p ih =>
    obtain ⟨t1, h1⟩ := step_errors st i
    obtain ⟨t2, h2⟩ := ih (firstPhaseStep st i)
    exact ⟨t1 ++ t2, by simp [List.foldl_cons, h2, h1]⟩

lemma errors_nil_start (p : List AssemblerInstruction) (st : Assembler)
    (h : (p.foldl firstPhaseStep st).errors = []) : st.errors = [] := by
  obtain ⟨t, ht⟩ := foldl_errors p st
  rw [ht] at h
  exact (List.append_eq_nil.mp h).1

lemma foldl_preserves_symbol_value (p : List AssemblerInstruction) (st : Assembler)
    (n : String) (o : Nat)
    (he : (p.foldl firstPhaseStep st).errors = [])
    (hv : symbol_value st.symbols n = some o) :
    symbol_value (p.foldl firstPhaseStep st).symbols n = some o := by
  induction p generalizing st with
  | nil => exact hv
  | cons i p ih =>
    have he2 : (p.foldl firstPhaseStep (firstPhaseStep st i)).errors = [] := by
      simpa using he
    have he1 : (firstPhaseStep st i).errors = [] := errors_nil_start p _ he2
    simpa using ih (firstPhaseStep st i) he2 (step_preserves_symbol_value st i n o he1 hv)

lemma foldl_ro_mono (p : List AssemblerInstruction) (st : Assembler) :
    ∃ t, (p.foldl firstPhaseStep st).ro = st.ro ++ t := by
  induction p generalizing st with
  | nil => exact ⟨[], by simp⟩
  | cons i p ih =>
    obtain ⟨t1, h1⟩ := step_ro_mono st i
    obtain ⟨t2, h2⟩ := ih (firstPhaseStep st i)
    exact ⟨t1 ++ t2, by simp [List.foldl_cons, h2, h1]⟩

lemma foldl_phase (p : List AssemblerInstruction) (st : Assembler) :
    (p.foldl firstPhaseStep st).phase = st.phase := by
  induction p generalizing st with
  | nil => rfl
  | cons i p ih => simp [List.foldl_cons, ih (firstPhaseStep st i), step_phase]

lemma foldl_ro_offset_inv (p : List AssemblerInstruction) (st : Assembler)
    (h : st.ro_offset = st.ro.length) :
    (p.foldl firstPhaseStep st).ro_offset = (p.foldl firstPhaseStep st).ro.length := by
  induction p generalizing st with
  | nil => exact h
  | cons i p ih => simpa using ih (firstPhaseStep st i) (step_ro_offset_inv st i h)

lemma foldl_ci (p : List AssemblerInstruction) (st : Assembler) :
    (p.foldl firstPhaseStep st).current_instruction =
      st.current_instruction + p.length := by
  induction p generalizing st with
  | nil => simp
  | cons i p ih =>
    have := ih (firstPhaseStep st i)
    rw [step_ci] at this
    simp only [List.foldl_cons]
    rw [this]
    simp
    omega

/-- A byte segment sits inside a buffer at a given offset. -/
def RoAt (ro : List Nat) (o : Nat) (bs : List Nat) : Prop :=
  ∃ pre post, ro = pre ++ bs ++ post ∧ pre.length = o

lemma RoAt_append {ro : List Nat} {o : Nat} {bs : List Nat} (t : List Nat)
    (h : RoAt ro o bs) : RoAt (ro ++ t) o bs := by
  obtain ⟨pre, post, h1, h2⟩ := h
  exact ⟨pre, post ++ t, by simp [h1], h2⟩

/-- General first-pass fact about a plain (non-asciiz) label at index k
of the remaining program: with no accumulated errors, its symbol ends up
at offset (start + k) * 4 + 60. -/
lemma foldl_label_offset (p : List AssemblerInstruction) (st : Assembler)
    (k : Nat) (instr : AssemblerInstruction) (n : String)
    (he : (p.foldl firstPhaseStep st).errors = [])
    (hk : p.get? k = some instr)
    (hn : instr.label_name = some n)
    (hno : ¬(instr.directive_name = some "asciiz" ∧ instr.has_operands = true ∧
      instr.get_string_constant.isSome = true)) :
    symbol_value (p.foldl firstPhaseStep st).symbols n =
      some ((st.current_instruction + k) * 4 + 60) := by
  induction p generalizing st k with
  | nil => simp [List.get?] at hk
  | cons i p ih =>
    have he2 : (p.foldl firstPhaseStep (firstPhaseStep st i)).errors = [] := by
      simpa using he
    have he1 : (firstPhaseStep st i).errors = [] := errors_nil_start p _ he2
    cases k with
    | zero =>
      have hik : i = instr := by simpa [List.get?] using hk
      subst hik
      have hest := step_establishes_label st i n he1 hn hno
      simpa using foldl_preserves_symbol_value p (firstPhaseStep st i) n _ he2 hest
    | succ k =>
      have hk2 : p.get? k = some instr := by simpa [List.get?] using hk
      have := ih (firstPhaseStep st i) k he2 hk2
      rw [step_ci] at this
      have harith : st.current_instruction + 1 + k = st.current_instruction + (k + 1) := by
        omega
      rw [harith] at this
      simpa using this

/-- General first-pass fact about a labelled asciiz directive in the
remaining program: with no accumulated errors, the label resolves to an
offset where the string bytes followed by a zero terminator sit in
ro. -/
lemma foldl_asciiz_fact (p : List AssemblerInstruction) (st : Assembler)
    (instr : AssemblerInstruction) (n s : String)
    (hmem : instr ∈ p)
    (he : (p.foldl firstPhaseStep st).errors = [])
    (hn : instr.label_name = some n)
    (hd : instr.directive_name = some "asciiz")
    (hs : instr.get_string_constant = some s)
    (hph : st.phase = .First)
    (hro : st.ro_offset = st.ro.length) :
    ∃ o, symbol_value (p.foldl firstPhaseStep st).symbols n = some o ∧
      RoAt (p.foldl firstPhaseStep st).ro o (utf8Bytes s ++ [0]) := by
  induction p generalizing st with
  | nil => cases hmem
  | cons i p ih =>
    have he2 : (p.foldl firstPhaseStep (firstPhaseStep st i)).errors = [] := by
      simpa using he
    have he1 : (firstPhaseStep st i).errors = [] := errors_nil_start p _ he2
    rcases List.mem_cons.mp hmem with heq | hmem2
    · subst heq
      obtain ⟨hsym, hroeq⟩ := step_establishes_asciiz st instr n s he1 hn hd hs hph
      refine ⟨st.ro_offset, ?_, ?_⟩
      · simpa using foldl_preserves_symbol_value p (firstPhaseStep st instr) n _ he2 hsym
      · have hAt : RoAt (firstPhaseStep st instr).ro st.ro_offset (utf8Bytes s ++ [0]) :=
          ⟨st.ro, [], by simp [hroeq], hro.symm⟩
        obtain ⟨t, hts⟩ := foldl_ro_mono p (firstPhaseStep st instr)
        have := RoAt_append t hAt
        rw [← hts] at this
        simpa using this
    · have hph2 : (firstPhaseStep st i).phase = .First := by
        rw [step_phase]
        exact hph
      simpa using ih (firstPhaseStep st i) hmem2 he2 hph2 (step_ro_offset_inv st i hro)

/-! ## Second-pass lemmas -/

lemma operandBytes_width (o : Option Token) (symbols : SymbolTable)
    (h : slotOk o = true) :
    ∃ bs, operandBytes o symbols = some bs ∧ bs.length = opWidth o symbols := by
  cases o with
  | none => exact ⟨[], rfl, rfl⟩
  | some t =>
    cases t with
    | Register n => exact ⟨[n], rfl, rfl⟩
    | IntegerOperand v =>
      exact ⟨[u16of v / 256, u16of v % 256], rfl, rfl⟩
    | LabelUsage name =>
      cases hv : symbol_value symbols name with
      | none =>
        exact ⟨[], by simp [operandBytes, extract_operand, hv], by simp [opWidth, hv]⟩
      | some v =>
        refine ⟨[v % 2 ^ 16 / 256, v % 2 ^ 16 % 256], ?_, by simp [opWidth, hv]⟩
        simp [operandBytes, extract_operand, hv]
    | Op c => simp [slotOk, tokenOperandOk] at h
    | LabelDeclaration nm => simp [slotOk, tokenOperandOk] at h
    | Directive nm => simp [slotOk, tokenOperandOk] at h
    | IrString nm => simp [slotOk, tokenOperandOk] at h

lemma to_bytes_width (i : AssemblerInstruction) (symbols : SymbolTable)
    (c : Opcode) (hop : i.opcode = some (.Op c)) (hok : operandsOk i = true) :
    ∃ bs, to_bytes i symbols = some bs ∧
      bs.length = 1 + opWidth i.operand1 symbols + opWidth i.operand2 symbols +
        opWidth i.operand3 symbols := by
  have h1 : slotOk i.operand1 = true := by
    simp [operandsOk, Bool.and_eq_true] at hok
    exact hok.1.1
  have h2 : slotOk i.operand2 = true := by
    simp [operandsOk, Bool.and_eq_true] at hok
    exact hok.1.2
  have h3 : slotOk i.operand3 = true := by
    simp [operandsOk, Bool.and_eq_true] at hok
    exact hok.2
  obtain ⟨b1, e1, l1⟩ := operandBytes_width i.operand1 symbols h1
  obtain ⟨b2, e2, l2⟩ := operandBytes_width i.operand2 symbols h2
  obtain ⟨b3, e3, l3⟩ := operandBytes_width i.operand3 symbols h3
  refine ⟨[c.toByte] ++ b1 ++ b2 ++ b3, ?_, ?_⟩
  · simp [to_bytes, hop, e1, e2, e3]
  · simp [l1, l2, l3]
    omega

lemma to_bytes_isSome (i : AssemblerInstruction) (symbols : SymbolTable)
    (hok : operandsOk i = true) : ∃ bs, to_bytes i symbols = some bs := by
  have h1 : slotOk i.operand1 = true := by
    simp [operandsOk, Bool.and_eq_true] at hok
    exact hok.1.1
  have h2 : slotOk i.operand2 = true := by
    simp [operandsOk, Bool.and_eq_true] at hok
    exact hok.1.2
  have h3 : slotOk i.operand3 = true := by
    simp [operandsOk, Bool.and_eq_true] at hok
    exact hok.2
  obtain ⟨b1, e1, _⟩ := operandBytes_width i.operand1 symbols h1
  obtain ⟨b2, e2, _⟩ := operandBytes_width i.operand2 symbols h2
  obtain ⟨b3, e3, _⟩ := operandBytes_width i.operand3 symbols h3
  cases hop : i.opcode with
  | none => exact ⟨b1 ++ b2 ++ b3, by simp [to_bytes, hop, e1, e2, e3]⟩
  | some t =>
    cases t with
    | Op c => exact ⟨[c.toByte] ++ b1 ++ b2 ++ b3, by simp [to_bytes, hop, e1, e2, e3]⟩
    | Register n => exact ⟨b1 ++ b2 ++ b3, by simp [to_bytes, hop, e1, e2, e3]⟩
    | IntegerOperand v => exact ⟨b1 ++ b2 ++ b3, by simp [to_bytes, hop, e1, e2, e3]⟩
    | LabelDeclaration nm => exact ⟨b1 ++ b2 ++ b3, by simp [to_bytes, hop, e1, e2, e3]⟩
    | LabelUsage nm => exact ⟨b1 ++ b2 ++ b3, by simp [to_bytes, hop, e1, e2, e3]⟩
    | Directive nm => exact ⟨b1 ++ b2 ++ b3, by simp [to_bytes, hop, e1, e2, e3]⟩
    | IrString nm => exact ⟨b1 ++ b2 ++ b3, by simp [to_bytes, hop, e1, e2, e3]⟩

lemma secondPhaseStep_isSome (acc : Assembler × List Nat) (i : AssemblerInstruction)
    (h : (!i.is_opcode || operandsOk i) = true) :
    (secondPhaseStep acc i).isSome = true := by
  obtain ⟨st, program⟩ := acc
  by_cases ho : i.is_opcode
  · have hok : operandsOk i = true := by
      simpa [ho] using h
    obtain ⟨bs, hbs⟩ := to_bytes_isSome i st.symbols hok
    simp [secondPhaseStep, ho, hbs]
  · simp [secondPhaseStep, ho]

lemma foldlM_second_isSome (p : List AssemblerInstruction)
    (acc : Assembler × List Nat) (h : secondOk p = true) :
    (List.foldlM secondPhaseStep acc p).isSome = true := by
  induction p generalizing acc with
  | nil => rfl
  | cons i p ih =>
    have hi : (!i.is_opcode || operandsOk i) = true := by
      have := (List.all_eq_true.mp h) i (by simp)
      simpa using this
    have hp : secondOk p = true := by
      refine List.all_eq_true.mpr fun x hx => ?_
      exact (List.all_eq_true.mp h) x (by simp [hx])
    obtain ⟨r1, hr1⟩ := Option.isSome_iff_exists.mp (secondPhaseStep_isSome acc i hi)
    have := ih r1 hp
    simpa [List.foldlM_cons, hr1] using this

lemma second_phase_isSome (st : Assembler) (p : List AssemblerInstruction)
    (h : secondOk p = true) : (process_second_phase st p).isSome = true :=
  foldlM_second_isSome p _ h

/-! ## Claim theorems -/

/-- C1: the claim says every opcode byte emitted by the assembler
(`code as u8`) decodes back to the same opcode under Opcode::from, with
ALOC at 16, INC at 17, DEC at 18 and PRTS at 19.  In the code, IGL sits
at discriminant 16, so the assembler emits ALOC as 17, INC as 18, DEC
as 19 and PRTS as 20, which the VM decodes as INC, DEC, PRTS and IGL
respectively; only the opcodes up to JEQ (and none of IGL, ALOC, INC,
DEC, PRTS) round-trip. -/
theorem c1_opcode_byte_mismatch :
    Opcode.toByte .ALOC = 17 ∧ Opcode.fromByte 17 = .INC ∧
    Opcode.toByte .INC = 18 ∧ Opcode.fromByte 18 = .DEC ∧
    Opcode.toByte .DEC = 19 ∧ Opcode.fromByte 19 = .PRTS ∧
    Opcode.toByte .PRTS = 20 ∧ Opcode.fromByte 20 = .IGL ∧
    Opcode.fromByte 16 = .ALOC ∧
    (∀ c : Opcode, Opcode.fromByte c.toByte =
      if c = .IGL then .ALOC
      else if c = .ALOC then .INC
      else if c = .INC then .DEC
      else if c = .DEC then .PRTS
      else if c = .PRTS then .IGL
      else c) := by decide

/-- C2 counterexample: the claim says a label declared on the
instruction at source index i gets offset 4 * i + 64.  In c2prog the
label sits at index 1 and its first-pass offset is 64, not
4 * 1 + 64 = 68: the code computes current_instruction * 4 + 60. -/
theorem c2_label_offset_counterexample :
    symbol_value (process_first_phase Assembler.new c2prog).symbols "lbl" = some 64 ∧
    (64 : Nat) ≠ 1 * 4 + 64 := by decide

/-- C2 amended: with no first-pass errors, a label declared on the
instruction at source index k (that is not a labelled asciiz constant,
whose offset is rewritten) gets symbol offset k * 4 + 60, not
k * 4 + 64. -/
theorem c2_label_offset_amended (p : List AssemblerInstruction) (k : Nat)
    (instr : AssemblerInstruction) (n : String)
    (he : (process_first_phase Assembler.new p).errors = [])
    (hk : p.get? k = some instr)
    (hn : instr.label_name = some n)
    (hno : ¬(instr.directive_name = some "asciiz" ∧ instr.has_operands = true ∧
      instr.get_string_constant.isSome = true)) :
    symbol_value (process_first_phase Assembler.new p).symbols n = some (k * 4 + 60) := by
  have hErr : (p.foldl firstPhaseStep Assembler.new).errors = [] := he
  have h := foldl_label_offset p Assembler.new k instr n hErr hk hn hno
  show symbol_value (p.foldl firstPhaseStep Assembler.new).symbols n = some (k * 4 + 60)
  simpa [Assembler.new] using h

/-- C2 witness: the amended offset law evaluated on c2prog. -/
theorem c2_label_offset_witness :
    symbol_value (process_first_phase Assembler.new c2prog).symbols "lbl" =
      some (1 * 4 + 60) :=
  c2_label_offset_amended c2prog 1
    { label := some (.LabelDeclaration "lbl"), opcode := some (.Op .HLT) } "lbl"
    (by decide) (by decide) (by decide) (by decide)

/-- C3 counterexample: the claim says every opcode-bearing instruction
is emitted as exactly 4 bytes (padded with zeros) and the VM consumes 4
bytes for it.  A HLT instruction is emitted as the single byte 0, and
running a program whose body is that one byte leaves pc at 65 = 64 + 1,
not 64 + 4. -/
theorem c3_frame_counterexample :
    to_bytes { opcode := some (.Op .HLT) } [] = some [0] ∧
    (1 : Nat) ≠ 4 ∧
    run 5 { VM.new with program := pieHeaderBytes ++ [0] } =
      some (0, { VM.new with program := pieHeaderBytes ++ [0], pc := 65 }) ∧
    (65 : Nat) ≠ 64 + 4 := by decide

/-- C3 amended: the assembler emits one opcode byte plus the bytes of
the operands actually present (register 1, integer 2, resolved label 2,
unresolved label 0) with no zero padding, so widths vary by mnemonic
instead of being 4; a HLT occupies 1 byte and the VM advances pc by 1
over it; and for the comparison family the VM consumes one pad byte the
assembler never emitted (neq emits 3 bytes while the VM advances pc by
4). -/
theorem c3_emitted_width_amended :
    (∀ (i : AssemblerInstruction) (symbols : SymbolTable) (c : Opcode),
      i.opcode = some (.Op c) → operandsOk i = true →
      ∃ bs, to_bytes i symbols = some bs ∧
        bs.length = 1 + opWidth i.operand1 symbols + opWidth i.operand2 symbols +
          opWidth i.operand3 symbols) ∧
    (executeInstruction { VM.new with program := pieHeaderBytes ++ [0], pc := 64 } =
      some (true, { VM.new with program := pieHeaderBytes ++ [0], pc := 65 })) ∧
    (to_bytes { opcode := some (.Op .NEQ)
                operand1 := some (.Register 0)
                operand2 := some (.Register 2) } [] = some [10, 0, 2]) ∧
    (executeInstruction { VM.new with program := pieHeaderBytes ++ [10, 0, 2, 7], pc := 64 } =
      some (false, { VM.new with program := pieHeaderBytes ++ [10, 0, 2, 7], pc := 68 })) := by
  refine ⟨?_, by decide, by decide, by decide⟩
  intro i symbols c hop hok
  exact to_bytes_width i symbols c hop hok

/-- C3 witness: the width law evaluated on a load instruction. -/
theorem c3_emitted_width_witness :
    ∃ bs, to_bytes { opcode := some (.Op .LOAD)
                     operand1 := some (.Register 0)
                     operand2 := some (.IntegerOperand 500) } [] = some bs ∧
      bs.length = 1 + opWidth (some (.Register 0)) [] +
        opWidth (some (.IntegerOperand 500)) [] + opWidth none [] :=
  c3_emitted_width_amended.1
    { opcode := some (.Op .LOAD)
      operand1 := some (.Register 0)
      operand2 := some (.IntegerOperand 500) } [] .LOAD (by decide) (by decide)

/-- C4 counterexample: the claim says a program shorter than four bytes
also makes run return status 1.  On the empty program, verify_header
indexes program[0..4] out of bounds (a panic, modelled none), so run
does not return status 1. -/
theorem c4_short_program_counterexample :
    run 1 VM.new = none ∧ VM.new.program.length < 4 := by decide

/-- C4 amended: for programs of at least four bytes whose first four
bytes are not the magic prefix, run returns status 1 and the VM state
is unchanged (no instruction executes); shorter programs instead panic
inside verify_header. -/
theorem c4_bad_magic_amended (fuel : Nat) (vm : VM)
    (h4 : 4 ≤ vm.program.length)
    (hm : vm.program.take 4 ≠ pieHeaderMagic) :
    run fuel vm = some (1, vm) := by
  have h1 : ¬(vm.program.length < 4) := by omega
  simp [run, verifyHeader, h1, hm]

/-- C4 witness: a four-byte zero program is rejected with status 1. -/
theorem c4_bad_magic_witness :
    run 3 { VM.new with program := [0, 0, 0, 0] } =
      some (1, { VM.new with program := [0, 0, 0, 0] }) :=
  c4_bad_magic_amended 3 { VM.new with program := [0, 0, 0, 0] }
    (by decide) (by decide)

/-- C5 counterexample: the claim says InsufficientSections occurs
exactly when the source lacks a .data or a .code section, that a source
with at least one of each never receives it, and that a source with two
sections of the same kind does.  The code only checks that the number
of recorded section headers equals 2: a source with two .code sections
and no .data assembles to an image without error, and a source with one
.data and two .code sections is rejected with InsufficientSections. -/
theorem c5_sections_counterexample :
    ((parseProgram (tokenize c5srcA)).map
      (fun r => (process_first_phase Assembler.new r.1).sections) =
        some [.Code none, .Code none]) ∧
    assembleSource c5srcA = some (.ok (pieHeaderBytes ++ [0])) ∧
    ((parseProgram (tokenize c5srcB)).map
      (fun r => (process_first_phase Assembler.new r.1).sections) =
        some [.Data none, .Code none, .Code none]) ∧
    assembleSource c5srcB = some (.error [.InsufficientSections]) :=
  ⟨rfl, rfl, rfl, rfl⟩

/-- C5 amended: for a parsed program with no first-pass errors (and
operand slots that cannot reach the process exit), assembly fails with
exactly InsufficientSections when the number of recorded section
headers differs from 2, and produces an image exactly when it equals
2 - regardless of the kinds of the sections. -/
theorem c5_sections_amended (p : List AssemblerInstruction)
    (hwf : secondOk p = true)
    (he : (process_first_phase Assembler.new p).errors = []) :
    (assembleProgram p = some (.error [.InsufficientSections]) ↔
      (process_first_phase Assembler.new p).sections.length ≠ 2) ∧
    ((∃ img, assembleProgram p = some (.ok img)) ↔
      (process_first_phase Assembler.new p).sections.length = 2) := by
  by_cases hlen : (process_first_phase Assembler.new p).sections.length = 2
  · obtain ⟨⟨st2, body⟩, hsp⟩ := Option.isSome_iff_exists.mp
      (second_phase_isSome (process_first_phase Assembler.new p) p hwf)
    have hres : assembleProgram p = some (.ok (pieHeaderBytes ++ body)) := by
      simp [assembleProgram, he, hlen, hsp]
    constructor
    · simp [hres, hlen]
    · simp [hres, hlen]
  · have hres : assembleProgram p = some (.error [.InsufficientSections]) := by
      simp [assembleProgram, he, hlen]
    constructor
    · simp [hres, hlen]
    · simp [hres, hlen]

/-- C5 witness: the amended section law evaluted on a program with one
.data and one .code header. -/
theorem c5_sections_witness :
    ∃ img, assembleProgram c5progW = some (.ok img) :=
  (c5_sections_amended c5progW (by decide) (by decide)).2.mpr (by decide)

/-- C6: the claim (matching the intent documented in the source TODO
that the parse remainder should be checked to be empty) says a source
with an unparsable non-blank line yields a single ParseError and no
image.  The code parses the longest instruction prefix, silently
discards the remainder, and assembles a partial image: on c6src the
remainder is the unparsable line and a 68-byte image is produced. -/
theorem c6_partial_parse_bug :
    (parseProgram (tokenize c6src)).map Prod.snd = some [")))"] ∧
    assembleSource c6src = some (.ok c6img) :=
  ⟨rfl, rfl⟩

/-- C7 counterexample: the claim says register tokens outside 0..31 are
rejected at parse time so register indexing never goes out of bounds.
The register recognizer accepts any u8 digit string: $32 parses to
register 32, and executing the resulting LOAD panics on the 32-element
register array (modelled none). -/
theorem c7_register_range_counterexample :
    parseOperandTok "$32".data = some (.Register 32) ∧
    executeInstruction { VM.new with program := pieHeaderBytes ++ [1, 32, 0, 5], pc := 64 } =
      none := by decide

/-- C7 amended: the register recognizer checks only that the digits fit
in a u8 (0..255), not 0..31; consequently any LOAD whose register byte
is at least 32 makes the VM index its 32-element register array out of
bounds (a panic, modelled none). -/
theorem c7_register_range_amended :
    (parseOperandTok "$32".data = some (.Register 32) ∧
     parseOperandTok "$255".data = some (.Register 255)) ∧
    (∀ (vm : VM) (r b1 b2 : Nat),
      vm.registers.length = 32 → 32 ≤ r →
      vm.program.get? vm.pc = some 1 →
      vm.program.get? (vm.pc + 1) = some r →
      vm.program.get? (vm.pc + 2) = some b1 →
      vm.program.get? (vm.pc + 3) = some b2 →
      executeInstruction vm = none) := by
  refine ⟨by decide, ?_⟩
  intro vm r b1 b2 hlen hr hp0 hp1 hp2 hp3
  have hlt : vm.pc < vm.program.length := (List.get?_eq_some.mp hp0).1
  have hnr : ¬(r < vm.registers.length) := by omega
  rw [List.get?_eq_getElem?] at hp0 hp1 hp2 hp3
  simp [executeInstruction, Nat.not_le.mpr hlt, hp0, Opcode.fromByte, next8, next16,
    hp1, hp2, hp3, setReg, hnr]

/-- C7 witness: the out-of-bounds law evaluated on a concrete LOAD with
register byte 32. -/
theorem c7_register_range_witness :
    executeInstruction { VM.new with program := pieHeaderBytes ++ [1, 32, 0, 5], pc := 64 } =
      none :=
  c7_register_range_amended.2
    { VM.new with program := pieHeaderBytes ++ [1, 32, 0, 5], pc := 64 }
    32 0 5 (by decide) (by decide) (by decide) (by decide) (by decide) (by decide)

/-- C8: after an error-free first pass, every label attached to an
asciiz directive with text s resolves to an offset o with
o + len(s) < len(ro), the bytes of s at ro[o..], and a zero terminator
right after; and each labelled asciiz grows ro and the ro offset by
exactly len(s) + 1. -/
theorem c8_asciiz_layout :
    (∀ (p : List AssemblerInstruction) (instr : AssemblerInstruction) (n s : String),
      instr ∈ p →
      (process_first_phase Assembler.new p).errors = [] →
      instr.label_name = some n →
      instr.directive_name = some "asciiz" →
      instr.get_string_constant = some s →
      ∃ o, symbol_value (process_first_phase Assembler.new p).symbols n = some o ∧
        o + (utf8Bytes s).length < (process_first_phase Assembler.new p).ro.length ∧
        ((process_first_phase Assembler.new p).ro.drop o).take (utf8Bytes s).length =
          utf8Bytes s ∧
        (process_first_phase Assembler.new p).ro.get? (o + (utf8Bytes s).length) = some 0) ∧
    (∀ (st : Assembler) (instr : AssemblerInstruction) (n s : String),
      st.phase = .First →
      instr.label_name = some n →
      instr.directive_name = some "asciiz" →
      instr.get_string_constant = some s →
      (firstPhaseStep st instr).ro.length = st.ro.length + ((utf8Bytes s).length + 1) ∧
      (firstPhaseStep st instr).ro_offset = st.ro_offset + ((utf8Bytes s).length + 1)) := by
  constructor
  · intro p instr n s hmem he hn hd hs
    have hErr : (p.foldl firstPhaseStep Assembler.new).errors = [] := he
    obtain ⟨o, hsym, pre, post, hsplit, hlen⟩ :=
      foldl_asciiz_fact p Assembler.new instr n s hmem hErr hn hd hs rfl rfl
    refine ⟨o, hsym, ?_, ?_, ?_⟩
    · show o + (utf8Bytes s).length < (p.foldl firstPhaseStep Assembler.new).ro.length
      rw [hsplit]
      simp [List.length_append]
      omega
    · show ((p.foldl firstPhaseStep Assembler.new).ro.drop o).take (utf8Bytes s).length =
        utf8Bytes s
      rw [hsplit, ← hlen, List.append_assoc, List.drop_left, List.append_assoc,
        List.take_left]
    · show (p.foldl firstPhaseStep Assembler.new).ro.get? (o + (utf8Bytes s).length) =
        some 0
      have hre : (p.foldl firstPhaseStep Assembler.new).ro =
          (pre ++ utf8Bytes s) ++ (0 :: post) := by
        rw [hsplit]
        simp
      have hl2 : (pre ++ utf8Bytes s).length = o + (utf8Bytes s).length := by
        simp [hlen]
      have hdrop : (p.foldl firstPhaseStep Assembler.new).ro.drop
          (o + (utf8Bytes s).length) = 0 :: post := by
        rw [hre, ← hl2, List.drop_left]
      have hgd := List.get?_drop (p.foldl firstPhaseStep Assembler.new).ro
        (o + (utf8Bytes s).length) 0
      rw [hdrop] at hgd
      simpa using hgd.symm
  · intro st instr n s hph hn hd hs
    have hdir := is_directive_of_directive_name hd
    have hop := has_operands_of_string_constant hs
    have hds : directiveStage (labelStage st instr) instr =
        handle_asciiz (labelStage st instr) instr := by
      unfold directiveStage process_directive
      rw [hd]
      simp [hdir, hop]
    have hph1 : (labelStage st instr).phase = .First := by
      rw [(labelStage_frame st instr).2.2.2]
      exact hph
    have hha := ha_action (labelStage st instr) instr s n hph1 hs hn
    have hro : (firstPhaseStep st instr).ro = (directiveStage (labelStage st instr) instr).ro := rfl
    have hroo : (firstPhaseStep st instr).ro_offset =
      (directiveStage (labelStage st instr) instr).ro_offset := rfl
    constructor
    · rw [hro, hds, hha]
      simp only
      rw [(labelStage_frame st instr).1]
      simp [Nat.add_assoc]
    · rw [hroo, hds, hha]
      simp only
      rw [(labelStage_frame st instr).2.1]
      omega

/-- C8 witness: the asciiz layout law evaluated on c8prog. -/
theorem c8_asciiz_witness :
    ∃ o, symbol_value (process_first_phase Assembler.new c8prog).symbols "hello" = some o ∧
      o + (utf8Bytes "Hi").length < (process_first_phase Assembler.new c8prog).ro.length ∧
      ((process_first_phase Assembler.new c8prog).ro.drop o).take (utf8Bytes "Hi").length =
        utf8Bytes "Hi" ∧
      (process_first_phase Assembler.new c8prog).ro.get?
        (o + (utf8Bytes "Hi").length) = some 0 :=
  c8_asciiz_layout.1 c8prog
    { label := some (.LabelDeclaration "hello"),
      directive := some (.Directive "asciiz"),
      operand1 := some (.IrString "Hi") } "hello" "Hi"
    (by decide) (by decide) (by decide) (by decide) (by decide)

/-- C9: executing DIV stores the truncated quotient r1 / r2 in the
destination register and r1 mod r2 cast to u32 in the remainder
register; and assembling and running the DIV scenario source leaves
register 2 equal to 3 and the remainder equal to 1. -/
theorem c9_div_semantics :
    (∀ (vm : VM) (a b c : Nat) (r1 r2 : Int),
      vm.program.get? vm.pc = some 5 →
      vm.program.get? (vm.pc + 1) = some a →
      vm.program.get? (vm.pc + 2) = some b →
      vm.program.get? (vm.pc + 3) = some c →
      vm.registers.get? a = some r1 →
      vm.registers.get? b = some r2 →
      r2 ≠ 0 →
      ¬(r1 = -(2 ^ 31 : Int) ∧ r2 = -1) →
      c < vm.registers.length →
      executeInstruction vm =
        some (false, { vm with
          pc := vm.pc + 4
          registers := vm.registers.set c (Int.tdiv r1 r2)
          remainder := u32of (i32Mod r1 r2) })) ∧
    (assembleSource c9src = some (.ok c9img) ∧
      (run 10 { VM.new with program := c9img }).map
        (fun r => (r.1, r.2.registers.get? 2, r.2.remainder)) = some (0, some 3, 1)) := by
  constructor
  · intro vm a b c r1 r2 hp5 ha hb hc hr1 hr2 hnz hnov hc32
    have hlt : vm.pc < vm.program.length := (List.get?_eq_some.mp hp5).1
    have harith : vm.pc + 1 + 1 + 1 + 1 = vm.pc + 4 := by omega
    rw [List.get?_eq_getElem?] at hp5 ha hb hc hr1 hr2
    have hnov2 : ¬(r1 = -2147483648 ∧ r2 = -1) := by
      norm_num at hnov ⊢
      exact hnov
    simp [executeInstruction, Nat.not_le.mpr hlt, hp5, Opcode.fromByte, next8,
      ha, hb, hc, getReg, hr1, hr2, i32Div, hnz, hnov2, setReg, hc32, harith]
  · exact ⟨rfl, by decide⟩

/-- C9 witness: the DIV step law evaluated on registers holding 10 and
3. -/
theorem c9_div_witness :
    executeInstruction { VM.new with
        program := [5, 0, 1, 2]
        registers := ([10, 3] ++ List.replicate 30 0 : List Int) } =
      some (false, { VM.new with
        program := [5, 0, 1, 2]
        registers := ([10, 3] ++ List.replicate 30 0 : List Int).set 2 (Int.tdiv 10 3)
        remainder := u32of (i32Mod 10 3)
        pc := 4 }) := by
  have h := c9_div_semantics.1
    { VM.new with
      program := [5, 0, 1, 2]
      registers := ([10, 3] ++ List.replicate 30 0 : List Int) }
    0 1 2 10 3 (by decide) (by decide) (by decide) (by decide) (by decide) (by decide)
    (by decide) (by decide) (by decide)
  simpa using h

/-- C10: the PRTS scan of the read-only area is unguarded: with the
starting offset at or past the end of ro_data, or with no zero byte at
or after it, the scan indexes out of bounds (a panic, modelled none);
with a zero terminator present the instruction executes. -/
theorem c10_prts_unguarded :
    executeInstruction { VM.new with
      program := pieHeaderBytes ++ [19, 0, 0]
      pc := 64
      ro_data := [] } = none ∧
    executeInstruction { VM.new with
      program := pieHeaderBytes ++ [19, 0, 0]
      pc := 64
      ro_data := [72, 105] } = none ∧
    (executeInstruction { VM.new with
      program := pieHeaderBytes ++ [19, 0, 0]
      pc := 64
      ro_data := [72, 105, 0] }).isSome = true := by decide

end Iridium
